import Mathlib

/-!

Verification of the `alpha_scanner` quantitative screening pipeline.

This file shallowly embeds the parts of the code base that the frozen
claims are about:

* `factors/utils.py` — `ensure_multiindex`, `simple_moving_average`,
  `rate_of_change`, `atr`, `rank_normalize`;
* the five factor modules `rs.py`, `trend.py`, `squeeze.py`,
  `momentum.py`, `volume.py`;
* `factor_engine.py` — `compute_factor_matrix`;
* `tccm.py` — `compute_adv`, `estimate_trade_costs`,
  `compute_capacity_usage`;
* `calibrator.py` — the Sharpe computation of `backtest_weights`, the
  lazy-default mutation of `BacktestConfig`, and `calibrate_phase1`.

Modelling conventions.

The Python code computes on IEEE-754 doubles held in pandas objects.
Cell values of the input panel (OHLCV fields, positions, prices) are
finite numbers and are modelled as `ℚ`.  Derived series can hold the
IEEE specials NaN (pandas' missing-value marker) and ±infinity
(produced by division by zero), so derived values live in the type
`FV` below, with arithmetic following the IEEE rules for the
operations the code performs (`ℚ` has a single zero, so the signed
zero of IEEE-754 is not represented; none of the embedded code
distinguishes -0.0 from +0.0).

Two operations of the code are irrational on rationals and are kept
as explicit function parameters rather than baked-in constants:

* `np.sqrt` / `pandas.std` take a square-root parameter `sq : ℚ → ℚ`
  (standing for the true square root; theorems that need facts about
  it take them as hypotheses, all true of the real square root);
* the market-impact power `x ** impact_alpha` of `tccm.py` is the
  field `impactPow : ℚ → ℚ` of `TCCMConfig` (standing for
  `fun x => x ** impact_alpha`; hypotheses such as `impactPow 0 = 0`
  correspond to `0 < impact_alpha`, true of the default 0.75).

-/

/-- IEEE-754-style value of a derived pandas cell: NaN (pandas missing
value), ±∞, or a finite number (modelled as a rational). -/
inductive FV where
  | nan  : FV
  | pinf : FV
  | ninf : FV
  | fin  : ℚ → FV
deriving DecidableEq

namespace FV

/-- IEEE negation. -/
def neg : FV → FV
  | nan => nan
  | pinf => ninf
  | ninf => pinf
  | fin a => fin (-a)

/-- IEEE addition (`+` on float series): NaN propagates and
`∞ + (-∞) = NaN`. -/
def add : FV → FV → FV
  | nan, _ => nan
  | pinf, nan => nan
  | pinf, pinf => pinf
  | pinf, ninf => nan
  | pinf, fin _ => pinf
  | ninf, nan => nan
  | ninf, pinf => nan
  | ninf, ninf => ninf
  | ninf, fin _ => ninf
  | fin _, nan => nan
  | fin _, pinf => pinf
  | fin _, ninf => ninf
  | fin a, fin b => fin (a + b)

/-- IEEE subtraction, `a - b = a + (-b)`. -/
def sub (a b : FV) : FV := a.add b.neg

/-- IEEE multiplication: NaN propagates and `±∞ * 0 = NaN`. -/
def mul : FV → FV → FV
  | nan, _ => nan
  | pinf, nan => nan
  | pinf, pinf => pinf
  | pinf, ninf => ninf
  | pinf, fin b => if b = 0 then nan else if 0 < b then pinf else ninf
  | ninf, nan => nan
  | ninf, pinf => ninf
  | ninf, ninf => pinf
  | ninf, fin b => if b = 0 then nan else if 0 < b then ninf else pinf
  | fin _, nan => nan
  | fin a, pinf => if a = 0 then nan else if 0 < a then pinf else ninf
  | fin a, ninf => if a = 0 then nan else if 0 < a then ninf else pinf
  | fin a, fin b => fin (a * b)

/-- IEEE division: NaN propagates, `x/±∞ = 0`, `±∞/±∞ = NaN`,
`a/0 = ±∞` by the sign of `a` and `0/0 = NaN` (numpy semantics of
pandas' `/` on float series; `∞/0 = ∞` since `0` is `+0.0`). -/
def div : FV → FV → FV
  | nan, _ => nan
  | pinf, nan => nan
  | pinf, pinf => nan
  | pinf, ninf => nan
  | pinf, fin b => if 0 ≤ b then pinf else ninf
  | ninf, nan => nan
  | ninf, pinf => nan
  | ninf, ninf => nan
  | ninf, fin b => if 0 ≤ b then ninf else pinf
  | fin _, nan => nan
  | fin _, pinf => fin 0
  | fin _, ninf => fin 0
  | fin a, fin b =>
      if b = 0 then (if a = 0 then nan else if 0 < a then pinf else ninf)
      else fin (a / b)

/-- Is this value pandas-missing (NaN)? -/
def isNan : FV → Bool
  | nan => true
  | _ => false

/-- Embedding of `Series.fillna(0.0)`: replace NaN by `0.0`, keep everything else
(in particular ±∞ are NOT replaced). -/
def fillna : FV → FV
  | nan => fin 0
  | pinf => pinf
  | ninf => ninf
  | fin a => fin a

/-- Embedding of `Series.replace(0, np.nan)`: turn an exact zero into NaN, keep
everything else. -/
def replace0 : FV → FV
  | fin a => if a = 0 then nan else fin a
  | v => v

/-- Embedding of `np.sign` on floats: `sign NaN = NaN`, `sign ±∞ = ±1`. -/
def sign : FV → FV
  | nan => nan
  | pinf => fin 1
  | ninf => fin (-1)
  | fin a => fin (if 0 < a then 1 else if a < 0 then -1 else 0)

/-- IEEE `<` as the boolean pandas comparison: any comparison with
NaN is `False`; `-∞ < fin a < ∞`. -/
def ltb : FV → FV → Bool
  | nan, _ => false
  | pinf, _ => false
  | ninf, nan => false
  | ninf, pinf => true
  | ninf, ninf => false
  | ninf, fin _ => true
  | fin _, nan => false
  | fin _, pinf => true
  | fin _, ninf => false
  | fin a, fin b => a < b

/-- IEEE `≤` as a boolean: any comparison with NaN is `False`. -/
def leb : FV → FV → Bool
  | nan, _ => false
  | pinf, nan => false
  | pinf, pinf => true
  | pinf, ninf => false
  | pinf, fin _ => false
  | ninf, nan => false
  | ninf, _ => true
  | fin _, nan => false
  | fin _, pinf => true
  | fin _, ninf => false
  | fin a, fin b => a ≤ b

/-- Lift a rational function (the stand-in for `x ** alpha`, with
`alpha > 0`) to `FV`: numpy gives `NaN ** alpha = NaN` and
`inf ** alpha = inf` for positive `alpha`. -/
def powQ (p : ℚ → ℚ) : FV → FV
  | nan => nan
  | pinf => pinf
  | ninf => nan
  | fin a => fin (p a)

/-- Finite or missing: the value is not ±∞. -/
def finOrNan : FV → Prop
  | pinf => False
  | ninf => False
  | _ => True

instance : DecidablePred finOrNan := by
  intro v
  cases v <;> simp [finOrNan] <;> infer_instance

theorem finOrNan_nan : finOrNan nan := trivial

theorem finOrNan_fin (a : ℚ) : finOrNan (fin a) := trivial

/-- A non-missing value is ±∞ or finite. -/
theorem not_isNan_iff (v : FV) :
    v.isNan = false ↔ v = pinf ∨ v = ninf ∨ ∃ a, v = fin a := by
  cases v <;> simp [isNan]

/-- Adding two finite-or-NaN values stays finite-or-NaN. -/
theorem finOrNan_add {a b : FV} (ha : finOrNan a) (hb : finOrNan b) :
    finOrNan (a.add b) := by
  cases a <;> cases b <;> simp_all [finOrNan, add]

/-- Multiplying a finite constant into a finite-or-NaN value stays
finite-or-NaN. -/
theorem finOrNan_mul_fin (c : ℚ) {b : FV} (hb : finOrNan b) :
    finOrNan ((fin c).mul b) := by
  cases b <;> simp_all [finOrNan, mul]

/-- Subtracting finite-or-NaN values stays finite-or-NaN. -/
theorem finOrNan_sub {a b : FV} (ha : finOrNan a) (hb : finOrNan b) :
    finOrNan (a.sub b) := by
  cases a <;> cases b <;> simp_all [finOrNan, sub, add, neg]

/-- Dividing finite-or-NaN values after `replace(0, nan)` on the
denominator stays finite-or-NaN. -/
theorem finOrNan_div_replace0 {a b : FV} (ha : finOrNan a) (hb : finOrNan b) :
    finOrNan (a.div b.replace0) := by
  cases a with
  | nan => cases b <;> simp_all [finOrNan, div, replace0]
  | pinf => exact absurd ha (by simp [finOrNan])
  | ninf => exact absurd ha (by simp [finOrNan])
  | fin a =>
      cases b with
      | nan => simp [finOrNan, div, replace0]
      | pinf => exact absurd hb (by simp [finOrNan])
      | ninf => exact absurd hb (by simp [finOrNan])
      | fin b =>
          by_cases h : b = 0 <;> simp_all [finOrNan, div, replace0]

/-- Fact: `fillna` of a finite-or-NaN value is finite. -/
theorem fillna_finOrNan {v : FV} (h : finOrNan v) : ∃ a, v.fillna = fin a := by
  cases v <;> simp_all [finOrNan, fillna]

/-- The sum of two genuinely finite values is finite. -/
theorem add_fin (a b : ℚ) : (fin a).add (fin b) = fin (a + b) := rfl

/-- A finite-or-NaN `sign` is always finite or NaN (it is never ±∞). -/
theorem finOrNan_sign (v : FV) : finOrNan v.sign := by
  cases v <;> simp [sign, finOrNan]

end FV

/-!
## Technical primitives (`factors/utils.py`)

All temporal primitives of the code act per ticker: a grouped rolling
window or shift only ever sees the rows of one ticker, in time order.
They are therefore embedded as functions of a single ticker's series
(a `List ℚ` of finite cell values, or a `List Row` of OHLCV rows) and
of a row position `i` inside that series; the panel-level grouping is
the explicit `panelColumn` further down.  Rolling windows use
`min_periods = window` throughout, i.e. the first `window - 1`
positions are NaN (window sizes are positive in every configuration;
pandas rejects `window = 0`).
-/

/-- Cell at position `i` of a ticker's series. -/
def seriesGet (xs : List ℚ) (i : ℕ) : ℚ := xs.getD i 0

/-- Sum of the trailing `w`-window `f (i+1-w), …, f i`. -/
def windowSum (f : ℕ → ℚ) (w i : ℕ) : ℚ :=
  (((List.range (i + 1)).drop (i + 1 - w)).map f).sum

/-- Embedding of `.rolling(window=w, min_periods=w).mean()` at position `i` of the
series with values `f` — the shared idiom behind
`simple_moving_average`, `compute_adv` and the mean step of `atr`. -/
def rollingMeanAt (f : ℕ → ℚ) (w i : ℕ) : FV :=
  if i + 1 < w then FV.nan else FV.fin (windowSum f w i / w)

/-- Embedding of `.rolling(window=w, min_periods=w).std()` (sample std, the pandas
default `ddof=1`) at position `i`; `sq` stands for the square root.
With a single observation the sample variance is `0/0`, i.e. NaN. -/
def rollingStdAt (sq : ℚ → ℚ) (f : ℕ → ℚ) (w i : ℕ) : FV :=
  if i + 1 < w then FV.nan
  else if w ≤ 1 then FV.nan
  else
    FV.fin (sq ((((List.range (i + 1)).drop (i + 1 - w)).map
      (fun j => (f j - windowSum f w i / w) ^ 2)).sum / ((w : ℚ) - 1)))

/-- Embedding of `rate_of_change` (`utils.py` lines 56-59): percentage change over
`w` days, `(series / series.shift(w) - 1.0) * 100.0`, with the shift
computed inside the ticker's own series (NaN before `w` rows). -/
def rate_of_changeAt (xs : List ℚ) (w i : ℕ) : FV :=
  let prev : FV := if i < w then FV.nan else FV.fin (seriesGet xs (i - w))
  (((FV.fin (seriesGet xs i)).div prev).sub (FV.fin 1)).mul (FV.fin 100)

/-- One OHLCV row of the normalized panel.  The `open` column is
called `opn` (`open` is a Lean keyword); no embedded computation reads
it. -/
structure Row where
  date : ℕ
  ticker : ℕ
  opn : ℚ
  high : ℚ
  low : ℚ
  close : ℚ
  volume : ℚ
deriving DecidableEq, Repr

instance : Inhabited Row := ⟨⟨0, 0, 0, 0, 0, 0, 0⟩⟩

/-- Row at position `i` of a ticker's series of rows. -/
def rowGet (rows : List Row) (i : ℕ) : Row := rows.getD i default

/-- True range of `atr` (`utils.py` lines 74-83):
`max(high - low, |high - prevClose|, |low - prevClose|)` where
`prevClose` is the prior row's close within the ticker.  On a
ticker's first row `prevClose` is NaN and the row-wise `max` of the
concatenated frame skips NaN, leaving `high - low`. -/
def trueRangeAt (rows : List Row) (i : ℕ) : ℚ :=
  let r := rowGet rows i
  if i = 0 then r.high - r.low
  else
    let pc := (rowGet rows (i - 1)).close
    max (r.high - r.low) (max |r.high - pc| |r.low - pc|)

/-- Embedding of `atr` (`utils.py` lines 62-92): rolling mean of the true range
with `min_periods = window`. -/
def atrAt (rows : List Row) (w i : ℕ) : FV :=
  rollingMeanAt (trueRangeAt rows) w i

/-!
## Factor modules (`factors/rs.py`, `trend.py`, `squeeze.py`,
`momentum.py`, `volume.py`)

Each module is embedded at the level of a single ticker's series; the
weighted blends reproduce the Python expressions term for term,
left-associated, including exactly which sub-indicator is wrapped in
`.fillna(0.0)` in the source (every one in Trend / Squeeze /
Momentum / Volume — and none in RS).
-/

/-- Horizon windows of the RS factor (defaults 21/63/126/252). -/
structure RSConfig where
  short_window : ℕ := 21
  mid_window : ℕ := 63
  long_window : ℕ := 126
  very_long_window : ℕ := 252

/-- Embedding of `compute_rs_score` (`rs.py` lines 72-97) in the
`benchmark_prices=None` branch used by the factor engine's callers:
`0.1 * roc21 + 0.3 * roc63 + 0.3 * roc126 + 0.3 * roc252`, with NO
`fillna` on any sub-indicator. -/
def compute_rs_scoreAt (cfg : RSConfig) (close : List ℚ) (i : ℕ) : FV :=
  ((((FV.fin (1/10)).mul (rate_of_changeAt close cfg.short_window i)).add
    ((FV.fin (3/10)).mul (rate_of_changeAt close cfg.mid_window i))).add
    ((FV.fin (3/10)).mul (rate_of_changeAt close cfg.long_window i))).add
    ((FV.fin (3/10)).mul (rate_of_changeAt close cfg.very_long_window i))

/-- ROC windows of the Momentum factor (defaults 10/20). -/
structure MomentumConfig where
  roc_short : ℕ := 10
  roc_long : ℕ := 20

/-- Embedding of `compute_momentum_score` (`momentum.py` lines 81-103):
`0.6 * roc_short.fillna(0.0) + 0.4 * roc_long.fillna(0.0)`. -/
def compute_momentum_scoreAt (cfg : MomentumConfig) (close : List ℚ) (i : ℕ) : FV :=
  ((FV.fin (3/5)).mul (rate_of_changeAt close cfg.roc_short i).fillna).add
    ((FV.fin (2/5)).mul (rate_of_changeAt close cfg.roc_long i).fillna)

/-- SMA windows of the Trend factor (defaults 20/50/200, slope 20). -/
structure TrendConfig where
  sma_short : ℕ := 20
  sma_med : ℕ := 50
  sma_long : ℕ := 200
  slope_window : ℕ := 20

/-- Embedding of `compute_trend_score` (`trend.py` lines 33-81):
`0.35 * sign(sma50 - sma200).fillna(0)`
`+ 0.25 * ((close - sma200)/sma200.replace(0,nan)).fillna(0)`
`+ 0.2 * slope50.fillna(0) + 0.1 * slope200.fillna(0)`
`+ 0.1 * ((close - sma20)/sma20.replace(0,nan)).fillna(0)`,
slopes being `(sma - sma.shift(sw)) / max(sw, 1)`. -/
def compute_trend_scoreAt (cfg : TrendConfig) (close : List ℚ) (i : ℕ) : FV :=
  let sma_s := rollingMeanAt (seriesGet close) cfg.sma_short i
  let sma_m := rollingMeanAt (seriesGet close) cfg.sma_med i
  let sma_l := rollingMeanAt (seriesGet close) cfg.sma_long i
  let sma_m_shifted : FV :=
    if i < cfg.slope_window then FV.nan
    else rollingMeanAt (seriesGet close) cfg.sma_med (i - cfg.slope_window)
  let sma_l_shifted : FV :=
    if i < cfg.slope_window then FV.nan
    else rollingMeanAt (seriesGet close) cfg.sma_long (i - cfg.slope_window)
  let cross_state := (sma_m.sub sma_l).sign
  let dist_long := ((FV.fin (seriesGet close i)).sub sma_l).div sma_l.replace0
  let slope_med := (sma_m.sub sma_m_shifted).div (FV.fin ((max cfg.slope_window 1 : ℕ) : ℚ))
  let slope_long := (sma_l.sub sma_l_shifted).div (FV.fin ((max cfg.slope_window 1 : ℕ) : ℚ))
  let pos_short := ((FV.fin (seriesGet close i)).sub sma_s).div sma_s.replace0
  (((((FV.fin (7/20)).mul cross_state.fillna).add
    ((FV.fin (1/4)).mul dist_long.fillna)).add
    ((FV.fin (1/5)).mul slope_med.fillna)).add
    ((FV.fin (1/10)).mul slope_long.fillna)).add
    ((FV.fin (1/10)).mul pos_short.fillna)

/-- Bollinger/Keltner/ATR windows of the Squeeze factor. -/
structure SqueezeConfig where
  bb_window : ℕ := 20
  bb_std : ℚ := 2
  kc_window : ℕ := 20
  kc_mult : ℚ := 3/2
  atr_short : ℕ := 20
  atr_long : ℕ := 252

/-- Embedding of `compute_squeeze_score` (`squeeze.py` lines 35-88).  `sq` stands
for the square root inside the Bollinger rolling std.  The flag is
`(bb_width < kc_width).astype(float)` — an IEEE comparison, `False`
(hence `0.0`) whenever either width is NaN; the blend is
`0.4 * flag.fillna(0) + 0.3 * (-vol_ratio.fillna(0)) +
0.3 * range_over_atr.fillna(0)`. -/
def compute_squeeze_scoreAt (sq : ℚ → ℚ) (cfg : SqueezeConfig)
    (rows : List Row) (i : ℕ) : FV :=
  let closeF := fun j => (rowGet rows j).close
  let mid_bb := rollingMeanAt closeF cfg.bb_window i
  let rstd := rollingStdAt sq closeF cfg.bb_window i
  let upper_bb := mid_bb.add ((FV.fin cfg.bb_std).mul rstd)
  let lower_bb := mid_bb.sub ((FV.fin cfg.bb_std).mul rstd)
  let bb_width := (upper_bb.sub lower_bb).div mid_bb.replace0
  let mid_kc := rollingMeanAt closeF cfg.kc_window i
  let atr_kc := atrAt rows cfg.kc_window i
  let upper_kc := mid_kc.add ((FV.fin cfg.kc_mult).mul atr_kc)
  let lower_kc := mid_kc.sub ((FV.fin cfg.kc_mult).mul atr_kc)
  let kc_width := (upper_kc.sub lower_kc).div mid_kc.replace0
  let squeeze_flag : FV := if bb_width.ltb kc_width then FV.fin 1 else FV.fin 0
  let atr_s := atrAt rows cfg.atr_short i
  let atr_l := atrAt rows cfg.atr_long i
  let vol_ratio := atr_s.div atr_l.replace0
  let range_over_atr :=
    (FV.fin ((rowGet rows i).high - (rowGet rows i).low)).div atr_s.replace0
  (((FV.fin (2/5)).mul squeeze_flag.fillna).add
    ((FV.fin (3/10)).mul vol_ratio.fillna.neg)).add
    ((FV.fin (3/10)).mul range_over_atr.fillna)

/-- Volume-factor windows (defaults 20/50, ROC 20). -/
structure VolumeConfig where
  vol_ma_short : ℕ := 20
  vol_ma_long : ℕ := 50
  roc_window : ℕ := 20

/-- Embedding of `compute_volume_score` (`volume.py` lines 32-65):
`0.35 * (volume/sma20(volume).replace(0,nan)).fillna(0)`
`+ 0.25 * (volume/sma50(volume).replace(0,nan)).fillna(0)`
`+ 0.25 * vol_roc.fillna(0) + 0.15 * (-(price_roc - vol_roc).fillna(0))`. -/
def compute_volume_scoreAt (cfg : VolumeConfig) (close volume : List ℚ)
    (i : ℕ) : FV :=
  let v_ma_s := rollingMeanAt (seriesGet volume) cfg.vol_ma_short i
  let v_ma_l := rollingMeanAt (seriesGet volume) cfg.vol_ma_long i
  let vol_ratio_short := (FV.fin (seriesGet volume i)).div v_ma_s.replace0
  let vol_ratio_long := (FV.fin (seriesGet volume i)).div v_ma_l.replace0
  let vol_roc := rate_of_changeAt volume cfg.roc_window i
  let price_roc := rate_of_changeAt close cfg.roc_window i
  let divergence := price_roc.sub vol_roc
  ((((FV.fin (7/20)).mul vol_ratio_short.fillna).add
    ((FV.fin (1/4)).mul vol_ratio_long.fillna)).add
    ((FV.fin (1/4)).mul vol_roc.fillna)).add
    ((FV.fin (3/20)).mul divergence.fillna.neg)

/-!
## Panel-level grouping and the factor engine (`factor_engine.py`)

A panel is a list of OHLCV rows in normalized order (sorted by date,
then ticker — `ensure_multiindex` is embedded separately below).  The
pandas idiom `series.groupby(level="ticker").rolling(...)....
reset_index(level=0, drop=True)` computes a per-ticker value for each
row and realigns it to the panel's own row order; `panelColumn` is
that idiom: row `i`'s value is the module applied to row `i`'s
ticker's series at row `i`'s position inside that series.
-/

/-- The sub-series of rows belonging to one ticker, in panel order. -/
def tickerSeries (p : List Row) (tk : ℕ) : List Row :=
  p.filter (fun r => r.ticker = tk)

/-- Position of row `i` inside its own ticker's series: the number of
earlier panel rows carrying the same ticker. -/
def posInTicker (p : List Row) (i : ℕ) : ℕ :=
  ((p.take i).filter (fun r => r.ticker = (p.getD i default).ticker)).length

/-- Apply a per-ticker-series computation across the panel, keeping
the panel's row order (the grouped-rolling idiom described above). -/
def panelColumn (f : List Row → ℕ → FV) (p : List Row) : List FV :=
  (List.range p.length).map
    (fun i => f (tickerSeries p (p.getD i default).ticker) (posInTicker p i))

/-- RS module on a panel ticker-series (close column). -/
def rsModule (cfg : RSConfig) (rows : List Row) (i : ℕ) : FV :=
  compute_rs_scoreAt cfg (rows.map (fun r => r.close)) i

/-- Trend module on a panel ticker-series (close column). -/
def trendModule (cfg : TrendConfig) (rows : List Row) (i : ℕ) : FV :=
  compute_trend_scoreAt cfg (rows.map (fun r => r.close)) i

/-- Squeeze module on a panel ticker-series (high/low/close columns). -/
def squeezeModule (sq : ℚ → ℚ) (cfg : SqueezeConfig) (rows : List Row)
    (i : ℕ) : FV :=
  compute_squeeze_scoreAt sq cfg rows i

/-- Momentum module on a panel ticker-series (close column). -/
def momentumModule (cfg : MomentumConfig) (rows : List Row) (i : ℕ) : FV :=
  compute_momentum_scoreAt cfg (rows.map (fun r => r.close)) i

/-- Volume module on a panel ticker-series (close/volume columns). -/
def volumeModule (cfg : VolumeConfig) (rows : List Row) (i : ℕ) : FV :=
  compute_volume_scoreAt cfg (rows.map (fun r => r.close))
    (rows.map (fun r => r.volume)) i

/-- Embedding of `FactorEngineConfig` (`factor_engine.py` lines 22-30): which
factors are enabled. -/
structure FactorEngineConfig where
  use_rs : Bool := true
  use_trend : Bool := true
  use_squeeze : Bool := true
  use_momentum : Bool := true
  use_volume : Bool := true

/-- The raw factor table assembled by `compute_factor_matrix`
(`factor_engine.py` lines 56-79): one `<Factor>_raw` column per
enabled factor, each computed by its module with the module's default
configuration, all aligned on the panel's row order. -/
def rawFactors (cfg : FactorEngineConfig) (sq : ℚ → ℚ) (p : List Row) :
    List (String × List FV) :=
  (if cfg.use_rs then [("RS_raw", panelColumn (rsModule {}) p)] else []) ++
  (if cfg.use_trend then [("Trend_raw", panelColumn (trendModule {}) p)] else []) ++
  (if cfg.use_squeeze then [("Squeeze_raw", panelColumn (squeezeModule sq {}) p)] else []) ++
  (if cfg.use_momentum then [("Momentum_raw", panelColumn (momentumModule {}) p)] else []) ++
  (if cfg.use_volume then [("Volume_raw", panelColumn (volumeModule {}) p)] else [])

/-- The pandas average rank of `x` among the non-NaN members of `g`
(`Series.rank(method="average")`, `na_option="keep"`): the mean of
the positions `x` would occupy, computed by the standard identity
`rank = (#{y < x} + 1 + #{y ≤ x}) / 2`; NaN members compare `False`
and so are ignored. -/
def avgRank (g : List FV) (x : FV) : ℚ :=
  ((g.countP (fun y => y.ltb x) : ℚ) + 1 + (g.countP (fun y => y.leb x))) / 2

/-- The `_rank` inner function of `rank_normalize` (`utils.py` lines
108-114) applied to one value `v` of a date's cross-section `g`:
a cross-section of length ≤ 1 maps to `0.0` outright (even a NaN
value); otherwise NaN keeps a NaN rank and every other value's
average rank is mapped by
`lower + (rank - 1) * (upper - lower) / (n - 1)`. -/
def rankScale (lower upper : ℚ) (g : List FV) (v : FV) : FV :=
  if g.length ≤ 1 then FV.fin 0
  else
    match v with
    | FV.nan => FV.nan
    | x => FV.fin (lower + (avgRank g x - 1) * (upper - lower) / ((g.length : ℚ) - 1))

/-- The values of a raw column over the cross-section of date `d`
(all panel rows of that date, in panel order). -/
def dateCrossSection (p : List Row) (raw : List FV) (d : ℕ) : List FV :=
  ((List.range p.length).filter (fun j => (p.getD j default).date = d)).map
    (fun j => raw.getD j FV.nan)

/-- Embedding of `rank_normalize` (`utils.py` lines 95-116):
`series.groupby(level="date").transform(_rank)` — every row is
rescaled inside its own date's cross-section. -/
def rank_normalizeCol (lower upper : ℚ) (p : List Row) (raw : List FV) :
    List FV :=
  (List.range p.length).map
    (fun i => rankScale lower upper
      (dateCrossSection p raw (p.getD i default).date) (raw.getD i FV.nan))

/-- The column rename `col.replace("_raw", "_score")` of
`factor_engine.py` line 83, embedded as structural recursion on the
name's characters (every occurrence of `_raw` becomes `_score`). -/
def replaceRawTag : List Char → List Char
  | '_' :: 'r' :: 'a' :: 'w' :: rest =>
      '_' :: 's' :: 'c' :: 'o' :: 'r' :: 'e' :: replaceRawTag rest
  | c :: rest => c :: replaceRawTag rest
  | [] => []

/-- Embedding of `compute_factor_matrix` (`factor_engine.py` lines 33-87): each raw
column is rank-normalized per date with the default bounds
`[-1, 1]` and renamed from `<Factor>_raw` to `<Factor>_score`. -/
def compute_factor_matrix (cfg : FactorEngineConfig) (sq : ℚ → ℚ)
    (p : List Row) : List (String × List FV) :=
  (rawFactors cfg sq p).map
    (fun c => (String.mk (replaceRawTag c.1.data),
      rank_normalizeCol (-1) 1 p c.2))

/-!
## Panel index normalization (`factors/utils.py` lines 13-35)

`ensure_multiindex` accepts (a) a frame already carrying a two-level
index with `date` and `ticker` among its level names — reordered to
`[date, ticker]` if necessary and key-sorted — or (b) a frame with
plain `date`/`ticker` columns, which it sets as the index and
key-sorts; anything else raises `ValueError` (modelled as `none`).
Cell payload is one rational value per row; dates and tickers are ℕ
(sorting compares them like pandas compares index labels).  The
pandas `sort_index` is modelled by a stable insertion sort on the
(date, ticker) key.
-/

/-- Two-level panel key `(date, ticker)`. -/
abbrev PKey := ℕ × ℕ

/-- One keyed panel row: key and cell value. -/
abbrev PEntry := PKey × ℚ

/-- Lexicographic key order, date outermost, on keyed rows. -/
def entryLe (a b : PEntry) : Prop :=
  a.1.1 < b.1.1 ∨ (a.1.1 = b.1.1 ∧ a.1.2 ≤ b.1.2)

instance : DecidableRel entryLe := by
  intro a b
  unfold entryLe
  infer_instance

instance : IsTotal PEntry entryLe := by
  constructor
  intro a b
  unfold entryLe
  omega

instance : IsTrans PEntry entryLe := by
  constructor
  intro a b c hab hbc
  unfold entryLe at *
  omega

/-- The tabular inputs `ensure_multiindex` can receive. -/
inductive Frame where
  /-- `date` and `ticker` are plain columns (no suitable MultiIndex);
  rows are `(date, ticker, value)`. -/
  | plainDT (rows : List (ℕ × ℕ × ℚ)) : Frame
  /-- already MultiIndexed with level names `[date, ticker]`. -/
  | multiDT (rows : List PEntry) : Frame
  /-- MultiIndexed with level names `[ticker, date]` (keys stored as
  `(ticker, date)`), to be reordered. -/
  | multiTD (rows : List ((ℕ × ℕ) × ℚ)) : Frame
  /-- neither a usable MultiIndex nor `date`/`ticker` columns. -/
  | badFrame : Frame

/-- Embedding of `ensure_multiindex`: normalize to a `(date, ticker)`-keyed,
key-sorted panel, or fail (`ValueError` ↦ `none`). -/
def ensure_multiindex : Frame → Option (List PEntry)
  | Frame.multiDT rows => some (List.insertionSort entryLe rows)
  | Frame.multiTD rows =>
      some (List.insertionSort entryLe
        (rows.map (fun e => ((e.1.2, e.1.1), e.2))))
  | Frame.plainDT rows =>
      some (List.insertionSort entryLe
        (rows.map (fun e => ((e.1, e.2.1), e.2.2))))
  | Frame.badFrame => none

/-!
## Transaction Cost & Capacity Model (`tccm.py`)

Positions, prices and traded volumes are finite cells (`ℚ`); ADV and
volatility are derived series and may be NaN.  `impactPow` stands for
`fun x => x ** impact_alpha` (see the header).
-/

/-- Embedding of `TCCMConfig` (`tccm.py` lines 20-25); defaults: zero commission,
calibration constant `0.005`, ADV window 20.  `impactPow` carries the
market-impact power (default exponent 0.75 in the source). -/
structure TCCMConfig where
  commission_per_share : ℚ := 0
  calibration_constant : ℚ := 1/200
  impactPow : ℚ → ℚ
  adv_window : ℕ := 20

/-- Embedding of `compute_adv` (`tccm.py` lines 28-37): trailing mean of volume per
ticker, NaN until the window is filled. -/
def compute_advAt (volume : List ℚ) (w i : ℕ) : FV :=
  rollingMeanAt (seriesGet volume) w i

/-- The pointwise body of `estimate_trade_costs` (`tccm.py` lines
65-80) at one (date, ticker):
`delta_shares = |positions_next - positions_prev|`,
`dollar_size = delta_shares * price`,
`commission = delta_shares * commission_per_share`,
`size_over_adv = dollar_size / adv.replace(0, nan)`,
`mic = calibration_constant * size_over_adv ** impact_alpha * vol`,
`cost = commission + mic.fillna(0.0)`. -/
def tradeCostFormula (cfg : TCCMConfig) (pos_prev pos_next price : ℚ)
    (adv vol : FV) : FV :=
  let delta_shares : ℚ := |pos_next - pos_prev|
  let dollar_size : ℚ := delta_shares * price
  let commission : FV := FV.fin (delta_shares * cfg.commission_per_share)
  let size_over_adv : FV := (FV.fin dollar_size).div adv.replace0
  let mic : FV :=
    ((FV.fin cfg.calibration_constant).mul
      (FV.powQ cfg.impactPow size_over_adv)).mul vol
  commission.add mic.fillna

/-- Embedding of `estimate_trade_costs` at position `i` of a ticker's aligned
series: ADV is computed from the volume series with the configured
window. -/
def estimate_trade_costsAt (cfg : TCCMConfig)
    (positions_prev positions_next prices volume : List ℚ)
    (volatility : List FV) (i : ℕ) : FV :=
  tradeCostFormula cfg (seriesGet positions_prev i)
    (seriesGet positions_next i) (seriesGet prices i)
    (compute_advAt volume cfg.adv_window i) (volatility.getD i FV.nan)

/-- The pointwise body of `compute_capacity_usage` (`tccm.py` lines
97-99): `|position| * price / adv.replace(0, nan)`, with NO fillna. -/
def capacityFormula (position price : ℚ) (adv : FV) : FV :=
  (FV.fin (|position| * price)).div adv.replace0

/-- Embedding of `compute_capacity_usage` at position `i` of a ticker's aligned
series. -/
def compute_capacity_usageAt (cfg : TCCMConfig)
    (positions prices volume : List ℚ) (i : ℕ) : FV :=
  capacityFormula (seriesGet positions i) (seriesGet prices i)
    (compute_advAt volume cfg.adv_window i)

/-!
## Backtest / Calibrator (`calibrator.py`)
-/

/-- A factor weight vector (`Dict[str, float]`). -/
abbrev WeightVec := List (String × ℚ)

/-- Embedding of `BacktestConfig` (`calibrator.py` lines 27-34): target volatility
and an optional TCCM configuration (`None` until a backtest lazily
fills it in). -/
structure BacktestConfig where
  volatility_target : ℚ := 1/10
  tc_config : Option TCCMConfig := none

/-- The caller-visible state update `backtest_weights` performs on its
`bt_config` argument (`calibrator.py` lines 87-89): when
`bt_config.tc_config is None` it assigns a freshly constructed default
`TCCMConfig()` (whose impact power is `default_tc`'s) to the caller's
object; otherwise the config is left untouched.  All other inputs of
`backtest_weights` are only read. -/
def backtestConfigUpdate (default_tc : TCCMConfig) (cfg : BacktestConfig) :
    BacktestConfig :=
  match cfg.tc_config with
  | none => { cfg with tc_config := some default_tc }
  | some _ => cfg

/-- Mean of a float series (`Series.mean`; series of net daily
returns are finite, see `backtest_weights`). -/
def seriesMeanQ (xs : List ℚ) : ℚ := xs.sum / xs.length

/-- Population variance (`Series.std(ddof=0)` squared). -/
def pvarianceQ (xs : List ℚ) : ℚ :=
  (xs.map (fun x => (x - seriesMeanQ xs) ^ 2)).sum / xs.length

/-- The performance statistic of `backtest_weights` (`calibrator.py`
lines 135-137) on the net daily portfolio return series:
`mu = mean * 252`, `sigma = std(ddof=0) * sqrt(252)`,
`sharpe = mu / sigma if sigma > 0 else 0.0`.  `sq` stands for the
square root, so `std(ddof=0) = sq (pvariance)` and
`np.sqrt(252) = sq 252`. -/
def sharpe_net (sq : ℚ → ℚ) (port_ret_net : List ℚ) : ℚ :=
  let mu := seriesMeanQ port_ret_net * 252
  let sigma := sq (pvarianceQ port_ret_net) * sq 252
  if 0 < sigma then mu / sigma else 0

/-- Modelled from the spec: "annualized Sharpe = (mean net daily
return × 252) / (population stdev of net daily return × √252);
defined as 0 when the denominator is 0".  Stated with the same
square-root stand-in `sq`, for comparison with `sharpe_net`. -/
def sharpeSpec (sq : ℚ → ℚ) (xs : List ℚ) : ℚ :=
  if sq (pvarianceQ xs) * sq 252 = 0 then 0
  else (seriesMeanQ xs * 252) / (sq (pvarianceQ xs) * sq 252)

/-- Embedding of `calibrate_phase1` (`calibrator.py` lines 166-178), with the
backtest abstracted as the real-valued function
`backtestSharpe : WeightVec → ℚ` it calls on each candidate (the
panel and `bt_config` are fixed throughout the scan):
start from `best_sharpe = -inf` (the bottom of `WithBot ℚ`) and
`best_weights = {}`, scan the candidates in order and replace the
best on strict improvement only. -/
def calibStep (backtestSharpe : WeightVec → ℚ)
    (best : WeightVec × WithBot ℚ) (w : WeightVec) : WeightVec × WithBot ℚ :=
  if best.2 < (backtestSharpe w : WithBot ℚ)
  then (w, (backtestSharpe w : WithBot ℚ)) else best

def calibrate_phase1 (backtestSharpe : WeightVec → ℚ)
    (candidates : List WeightVec) : WeightVec × WithBot ℚ :=
  candidates.foldl (calibStep backtestSharpe) ([], ⊥)

/-!
## Helper lemmas
-/

/-- Reading back a position of a `List.range`-mapped series. -/
theorem getD_range_map {α : Type} (f : ℕ → α) (n i : ℕ) (d : α) (hi : i < n) :
    ((List.range n).map f).getD i d = f i := by
  rw [List.getD_eq_getElem?_getD, List.getElem?_map, List.getElem?_range hi]
  rfl

/-- Fact: `x + NaN = NaN`. -/
theorem FV.add_nan (x : FV) : x.add FV.nan = FV.nan := by cases x <;> rfl

/-- Fact: `NaN + x = NaN`. -/
theorem FV.nan_add (x : FV) : FV.nan.add x = FV.nan := rfl

/-- Fact: `c * NaN = NaN` for a finite constant. -/
theorem FV.fin_mul_nan (c : ℚ) : (FV.fin c).mul FV.nan = FV.nan := rfl

/-- For non-NaN operands, a float sum is NaN exactly on `∞ + (-∞)`. -/
theorem FV.add_eq_nan_iff {a b : FV} (ha : a ≠ FV.nan) (hb : b ≠ FV.nan) :
    a.add b = FV.nan ↔
      (a = FV.pinf ∧ b = FV.ninf) ∨ (a = FV.ninf ∧ b = FV.pinf) := by
  cases a <;> cases b <;> simp_all [FV.add]

/-- Fact: `fillna` never returns NaN. -/
theorem FV.fillna_ne_nan (v : FV) : v.fillna ≠ FV.nan := by
  cases v <;> simp [FV.fillna]

/-- Scaling by a positive finite constant keeps NaN-ness unchanged. -/
theorem FV.fin_mul_eq_nan_iff {c : ℚ} (hc : 0 < c) (v : FV) :
    (FV.fin c).mul v = FV.nan ↔ v = FV.nan := by
  cases v <;> simp [FV.mul, hc, hc.ne', not_lt_of_lt]

/-- Scaling by a positive finite constant sends only `+∞` to `+∞`. -/
theorem FV.fin_mul_eq_pinf_iff {c : ℚ} (hc : 0 < c) (v : FV) :
    (FV.fin c).mul v = FV.pinf ↔ v = FV.pinf := by
  cases v <;> simp [FV.mul, hc, hc.ne', not_lt_of_lt]

/-- Scaling by a positive finite constant sends only `-∞` to `-∞`. -/
theorem FV.fin_mul_eq_ninf_iff {c : ℚ} (hc : 0 < c) (v : FV) :
    (FV.fin c).mul v = FV.ninf ↔ v = FV.ninf := by
  cases v <;> simp [FV.mul, hc, hc.ne', not_lt_of_lt]

/-- Fact: `fillna` only forwards the infinities of its input. -/
theorem FV.fillna_eq_pinf_iff (v : FV) : v.fillna = FV.pinf ↔ v = FV.pinf := by
  cases v <;> simp [FV.fillna]

theorem FV.fillna_eq_ninf_iff (v : FV) : v.fillna = FV.ninf ↔ v = FV.ninf := by
  cases v <;> simp [FV.fillna]

/-- A rolling mean is finite or NaN, never infinite. -/
theorem rollingMeanAt_finOrNan (f : ℕ → ℚ) (w i : ℕ) :
    FV.finOrNan (rollingMeanAt f w i) := by
  unfold rollingMeanAt
  split <;> simp [FV.finOrNan]

/-- A rolling std is finite or NaN, never infinite. -/
theorem rollingStdAt_finOrNan (sq : ℚ → ℚ) (f : ℕ → ℚ) (w i : ℕ) :
    FV.finOrNan (rollingStdAt sq f w i) := by
  unfold rollingStdAt
  split
  · simp [FV.finOrNan]
  · split <;> simp [FV.finOrNan]

/-- Dividing a finite-or-NaN value by a nonzero finite constant stays
finite-or-NaN. -/
theorem FV.finOrNan_div_fin {a : FV} (ha : finOrNan a) {b : ℚ} (hb : b ≠ 0) :
    finOrNan (a.div (fin b)) := by
  cases a <;> simp_all [finOrNan, div, hb]

/-- A rate of change can only be `+∞` when the current cell (the
numerator of `series / series.shift(w)`) is positive. -/
theorem roc_eq_pinf_imp {xs : List ℚ} {w i : ℕ}
    (h : rate_of_changeAt xs w i = FV.pinf) : 0 < seriesGet xs i := by
  unfold rate_of_changeAt at h
  by_cases hw : i < w
  · simp [hw, FV.div, FV.sub, FV.add, FV.neg, FV.mul] at h
  · simp only [hw, if_false] at h
    by_cases hp : seriesGet xs (i - w) = 0
    · by_cases hv : seriesGet xs i = 0
      · simp [FV.div, hp, hv, FV.sub, FV.add, FV.neg, FV.mul] at h
      · rcases lt_or_gt_of_ne hv with hneg | hpos
        · simp [FV.div, hp, hv, not_lt_of_lt hneg, hneg,
            FV.sub, FV.add, FV.neg, FV.mul] at h
        · exact hpos
    · simp [FV.div, hp, FV.sub, FV.add, FV.neg, FV.mul] at h

/-- A rate of change can only be `-∞` when the current cell is
negative. -/
theorem roc_eq_ninf_imp {xs : List ℚ} {w i : ℕ}
    (h : rate_of_changeAt xs w i = FV.ninf) : seriesGet xs i < 0 := by
  unfold rate_of_changeAt at h
  by_cases hw : i < w
  · simp [hw, FV.div, FV.sub, FV.add, FV.neg, FV.mul] at h
  · simp only [hw, if_false] at h
    by_cases hp : seriesGet xs (i - w) = 0
    · by_cases hv : seriesGet xs i = 0
      · simp [FV.div, hp, hv, FV.sub, FV.add, FV.neg, FV.mul] at h
      · rcases lt_or_gt_of_ne hv with hneg | hpos
        · exact hneg
        · simp [FV.div, hp, hv, hpos, FV.sub, FV.add, FV.neg, FV.mul] at h
    · simp [FV.div, hp, FV.sub, FV.add, FV.neg, FV.mul] at h
/-- Fact: `-v = -∞` only for `v = +∞`. -/
theorem FV.neg_eq_ninf_iff (v : FV) : v.neg = FV.ninf ↔ v = FV.pinf := by
  cases v <;> simp [FV.neg]

/-- Fact: `-v = +∞` only for `v = -∞`. -/
theorem FV.neg_eq_pinf_iff (v : FV) : v.neg = FV.pinf ↔ v = FV.ninf := by
  cases v <;> simp [FV.neg]

/-- Fact: `x - ∞` is never `+∞`. -/
theorem FV.sub_pinf_ne_pinf (x : FV) : x.sub FV.pinf ≠ FV.pinf := by
  cases x <;> simp [FV.sub, FV.add, FV.neg]

/-- Fact: `x - (-∞)` is never `-∞`. -/
theorem FV.sub_ninf_ne_ninf (x : FV) : x.sub FV.ninf ≠ FV.ninf := by
  cases x <;> simp [FV.sub, FV.add, FV.neg]

/-- Fact: `fillna` then a finite weight always yields a finite value when
the input is not ±∞. -/
theorem FV.weighted_fin (c : ℚ) {v : FV} (h : FV.finOrNan v) :
    ∃ q, (FV.fin c).mul v.fillna = FV.fin q := by
  obtain ⟨a, ha⟩ := FV.fillna_finOrNan h
  exact ⟨c * a, by rw [ha]; rfl⟩

/-- As `FV.weighted_fin`, for the negated sub-indicators of the
Squeeze and Volume blends. -/
theorem FV.weighted_fin_neg (c : ℚ) {v : FV} (h : FV.finOrNan v) :
    ∃ q, (FV.fin c).mul v.fillna.neg = FV.fin q := by
  obtain ⟨a, ha⟩ := FV.fillna_finOrNan h
  exact ⟨c * -a, by rw [ha]; rfl⟩

/-- The Momentum blend is never NaN: both ROCs are filled, and the two
horizons share the current close as numerator, so their infinities
(which `fillna` keeps) always carry the same sign. -/
theorem compute_momentum_scoreAt_ne_nan (cfg : MomentumConfig)
    (close : List ℚ) (i : ℕ) : compute_momentum_scoreAt cfg close i ≠ FV.nan := by
  unfold compute_momentum_scoreAt
  intro h
  have hc1 : (0:ℚ) < 3/5 := by norm_num
  have hc2 : (0:ℚ) < 2/5 := by norm_num
  have ht1 : (FV.fin (3/5)).mul (rate_of_changeAt close cfg.roc_short i).fillna ≠ FV.nan :=
    fun hx => FV.fillna_ne_nan _ ((FV.fin_mul_eq_nan_iff hc1 _).mp hx)
  have ht2 : (FV.fin (2/5)).mul (rate_of_changeAt close cfg.roc_long i).fillna ≠ FV.nan :=
    fun hx => FV.fillna_ne_nan _ ((FV.fin_mul_eq_nan_iff hc2 _).mp hx)
  rw [FV.add_eq_nan_iff ht1 ht2] at h
  rcases h with ⟨h1, h2⟩ | ⟨h1, h2⟩
  · rw [FV.fin_mul_eq_pinf_iff hc1, FV.fillna_eq_pinf_iff] at h1
    rw [FV.fin_mul_eq_ninf_iff hc2, FV.fillna_eq_ninf_iff] at h2
    exact absurd (roc_eq_pinf_imp h1) (not_lt_of_lt (roc_eq_ninf_imp h2))
  · rw [FV.fin_mul_eq_ninf_iff hc1, FV.fillna_eq_ninf_iff] at h1
    rw [FV.fin_mul_eq_pinf_iff hc2, FV.fillna_eq_pinf_iff] at h2
    exact absurd (roc_eq_pinf_imp h2) (not_lt_of_lt (roc_eq_ninf_imp h1))

/-- The Trend blend is never NaN: every sub-indicator is finite or
NaN (its divisions go through `replace(0, nan)` or a positive
constant) and every sub-indicator is filled. -/
theorem compute_trend_scoreAt_ne_nan (cfg : TrendConfig) (close : List ℚ)
    (i : ℕ) : compute_trend_scoreAt cfg close i ≠ FV.nan := by
  unfold compute_trend_scoreAt
  dsimp only
  have hsw : ((max cfg.slope_window 1 : ℕ) : ℚ) ≠ 0 := by
    rw [Nat.cast_ne_zero]
    omega
  have hshiftm : FV.finOrNan (if i < cfg.slope_window then FV.nan
      else rollingMeanAt (seriesGet close) cfg.sma_med (i - cfg.slope_window)) := by
    split
    · exact FV.finOrNan_nan
    · exact rollingMeanAt_finOrNan _ _ _
  have hshiftl : FV.finOrNan (if i < cfg.slope_window then FV.nan
      else rollingMeanAt (seriesGet close) cfg.sma_long (i - cfg.slope_window)) := by
    split
    · exact FV.finOrNan_nan
    · exact rollingMeanAt_finOrNan _ _ _
  obtain ⟨q1, hq1⟩ := FV.weighted_fin (7/20)
    (FV.finOrNan_sign ((rollingMeanAt (seriesGet close) cfg.sma_med i).sub
      (rollingMeanAt (seriesGet close) cfg.sma_long i)))
  obtain ⟨q2, hq2⟩ := FV.weighted_fin (1/4)
    (FV.finOrNan_div_replace0
      (FV.finOrNan_sub (FV.finOrNan_fin (seriesGet close i))
        (rollingMeanAt_finOrNan (seriesGet close) cfg.sma_long i))
      (rollingMeanAt_finOrNan (seriesGet close) cfg.sma_long i))
  obtain ⟨q3, hq3⟩ := FV.weighted_fin (1/5)
    (FV.finOrNan_div_fin
      (FV.finOrNan_sub (rollingMeanAt_finOrNan (seriesGet close) cfg.sma_med i)
        hshiftm) hsw)
  obtain ⟨q4, hq4⟩ := FV.weighted_fin (1/10)
    (FV.finOrNan_div_fin
      (FV.finOrNan_sub (rollingMeanAt_finOrNan (seriesGet close) cfg.sma_long i)
        hshiftl) hsw)
  obtain ⟨q5, hq5⟩ := FV.weighted_fin (1/10)
    (FV.finOrNan_div_replace0
      (FV.finOrNan_sub (FV.finOrNan_fin (seriesGet close i))
        (rollingMeanAt_finOrNan (seriesGet close) cfg.sma_short i))
      (rollingMeanAt_finOrNan (seriesGet close) cfg.sma_short i))
  rw [hq1, hq2, hq3, hq4, hq5]
  simp [FV.add]
/-- Fact: `-v` is NaN only for NaN. -/
theorem FV.neg_eq_nan_iff (v : FV) : v.neg = FV.nan ↔ v = FV.nan := by
  cases v <;> simp [FV.neg]

/-- ATR is finite or NaN, never infinite. -/
theorem atrAt_finOrNan (rows : List Row) (w i : ℕ) :
    FV.finOrNan (atrAt rows w i) :=
  rollingMeanAt_finOrNan _ _ _

/-- A left-associated sum of three finite values is never NaN. -/
theorem blend3_ne_nan {t1 t2 t3 : FV} (h1 : ∃ a, t1 = FV.fin a)
    (h2 : ∃ a, t2 = FV.fin a) (h3 : ∃ a, t3 = FV.fin a) :
    (t1.add t2).add t3 ≠ FV.nan := by
  obtain ⟨a, ha⟩ := h1
  obtain ⟨b, hb⟩ := h2
  obtain ⟨c, hc⟩ := h3
  subst ha hb hc
  simp [FV.add]

/-- The Squeeze blend is never NaN: the flag is a plain 0/1, and both
ratio sub-indicators divide finite-or-NaN numerators by
`replace(0, nan)` denominators, so no infinity ever enters the
blend. -/
theorem compute_squeeze_scoreAt_ne_nan (sq : ℚ → ℚ) (cfg : SqueezeConfig)
    (rows : List Row) (i : ℕ) :
    compute_squeeze_scoreAt sq cfg rows i ≠ FV.nan := by
  unfold compute_squeeze_scoreAt
  dsimp only
  apply blend3_ne_nan
  · exact FV.weighted_fin _ (by split <;> exact FV.finOrNan_fin _)
  · exact FV.weighted_fin_neg _
      (FV.finOrNan_div_replace0 (atrAt_finOrNan rows cfg.atr_short i)
        (atrAt_finOrNan rows cfg.atr_long i))
  · exact FV.weighted_fin _
      (FV.finOrNan_div_replace0
        (FV.finOrNan_fin ((rowGet rows i).high - (rowGet rows i).low))
        (atrAt_finOrNan rows cfg.atr_short i))

/-- The Volume blend is never NaN: the two MA-ratios are finite or
NaN; an infinite volume ROC forces the divergence term (which
subtracts that same ROC) away from the opposite infinity. -/
theorem compute_volume_scoreAt_ne_nan (cfg : VolumeConfig)
    (close volume : List ℚ) (i : ℕ) :
    compute_volume_scoreAt cfg close volume i ≠ FV.nan := by
  unfold compute_volume_scoreAt
  dsimp only
  intro h
  have hc3 : (0:ℚ) < 1/4 := by norm_num
  have hc4 : (0:ℚ) < 3/20 := by norm_num
  obtain ⟨q1, hq1⟩ := FV.weighted_fin (7/20)
    (FV.finOrNan_div_replace0 (FV.finOrNan_fin (seriesGet volume i))
      (rollingMeanAt_finOrNan (seriesGet volume) cfg.vol_ma_short i))
  obtain ⟨q2, hq2⟩ := FV.weighted_fin (1/4)
    (FV.finOrNan_div_replace0 (FV.finOrNan_fin (seriesGet volume i))
      (rollingMeanAt_finOrNan (seriesGet volume) cfg.vol_ma_long i))
  rw [hq1, hq2, FV.add_fin] at h
  have ht4ne : (FV.fin (3/20)).mul
      ((rate_of_changeAt close cfg.roc_window i).sub
        (rate_of_changeAt volume cfg.roc_window i)).fillna.neg ≠ FV.nan :=
    fun hx => FV.fillna_ne_nan _
      ((FV.neg_eq_nan_iff _).mp ((FV.fin_mul_eq_nan_iff hc4 _).mp hx))
  rcases hfl : (rate_of_changeAt volume cfg.roc_window i).fillna
    with _ | _ | _ | q3
  · exact FV.fillna_ne_nan _ hfl
  · -- volume ROC is +∞: the third term is +∞, so NaN needs the fourth
    -- term to be -∞, i.e. the divergence to be +∞ — impossible since
    -- it subtracts that +∞.
    rw [hfl] at h
    have h3 : (FV.fin (1/4)).mul FV.pinf = FV.pinf := by
      simp [FV.mul, hc3, hc3.ne']
    rw [h3] at h
    have hstep : (FV.fin (q1 + q2)).add FV.pinf = FV.pinf := rfl
    rw [hstep] at h
    rw [FV.add_eq_nan_iff (by simp) ht4ne] at h
    rcases h with ⟨_, h2⟩ | ⟨h1, _⟩
    · rw [FV.fin_mul_eq_ninf_iff hc4, FV.neg_eq_ninf_iff,
        FV.fillna_eq_pinf_iff] at h2
      have : (rate_of_changeAt volume cfg.roc_window i) = FV.pinf :=
        (FV.fillna_eq_pinf_iff _).mp hfl
      rw [this] at h2
      exact FV.sub_pinf_ne_pinf _ h2
    · exact FV.noConfusion h1
  · -- volume ROC is -∞: symmetric.
    rw [hfl] at h
    have h3 : (FV.fin (1/4)).mul FV.ninf = FV.ninf := by
      simp [FV.mul, hc3, hc3.ne']
    rw [h3] at h
    have hstep : (FV.fin (q1 + q2)).add FV.ninf = FV.ninf := rfl
    rw [hstep] at h
    rw [FV.add_eq_nan_iff (by simp) ht4ne] at h
    rcases h with ⟨h1, _⟩ | ⟨_, h2⟩
    · exact FV.noConfusion h1
    · rw [FV.fin_mul_eq_pinf_iff hc4, FV.neg_eq_pinf_iff,
        FV.fillna_eq_ninf_iff] at h2
      have : (rate_of_changeAt volume cfg.roc_window i) = FV.ninf :=
        (FV.fillna_eq_ninf_iff _).mp hfl
      rw [this] at h2
      exact FV.sub_ninf_ne_ninf _ h2
  · -- volume ROC is finite: everything left of the fourth term is
    -- finite, and the fourth term is not NaN.
    rw [hfl] at h
    have h3 : (FV.fin (1/4)).mul (FV.fin q3) = FV.fin (1/4 * q3) := rfl
    rw [h3, FV.add_fin] at h
    rw [FV.add_eq_nan_iff (by simp) ht4ne] at h
    rcases h with ⟨h1, _⟩ | ⟨h1, _⟩ <;> exact FV.noConfusion h1

/-- The RS blend performs NO fill: a NaN in any horizon's ROC makes
the whole raw RS value NaN. -/
theorem compute_rs_scoreAt_propagates_nan (cfg : RSConfig) (close : List ℚ)
    (i : ℕ)
    (h : rate_of_changeAt close cfg.short_window i = FV.nan ∨
      rate_of_changeAt close cfg.mid_window i = FV.nan ∨
      rate_of_changeAt close cfg.long_window i = FV.nan ∨
      rate_of_changeAt close cfg.very_long_window i = FV.nan) :
    compute_rs_scoreAt cfg close i = FV.nan := by
  unfold compute_rs_scoreAt
  rcases h with h | h | h | h <;>
    rw [h] <;> simp [FV.fin_mul_nan, FV.add_nan, FV.nan_add]

/-!
## Concrete inputs used by counterexamples and witnesses
-/

/-- A computable stand-in square root satisfying the positivity facts
the theorems assume of `np.sqrt` (only ever applied to nonnegative
arguments). -/
def sqW : ℚ → ℚ := fun x => max x 0

/-- A one-row panel: single ticker `0`, single date `0`. -/
def p1 : List Row := [⟨0, 0, 100, 101, 99, 100, 1000⟩]

/-- C3 (corrected) — counterexample to the claim as stated: the claim
asserts every factor module's raw output is a defined (non-NaN) number
at every (date, ticker) key of the panel, but on the one-row panel
`p1` the RS module (whose blend has no `fillna`, `rs.py` lines 90-95)
produces NaN at the key (date 0, ticker 0): every ROC horizon lacks
history, and the NaN is not filled before blending. -/
theorem rs_raw_nan_counterexample :
    (panelColumn (rsModule {}) p1).getD 0 (FV.fin 0) = FV.nan := by rfl

/-- C3 (amended): in the Trend, Squeeze, Momentum and Volume modules
every undefined sub-indicator value is replaced by 0 before the
weighted blend, and their raw outputs are non-NaN at every key of the
panel (for any configuration); the RS module is a second exception
besides the benchmark horizon: it fills nothing, so its raw output is
NaN at every key where any of its four horizon ROCs is undefined. -/
theorem factor_modules_fill_then_combine
    (sq : ℚ → ℚ) (mcfg : MomentumConfig) (tcfg : TrendConfig)
    (scfg : SqueezeConfig) (vcfg : VolumeConfig) (rscfg : RSConfig)
    (p : List Row) (i : ℕ) (hi : i < p.length) :
    (panelColumn (momentumModule mcfg) p).getD i FV.nan ≠ FV.nan
    ∧ (panelColumn (trendModule tcfg) p).getD i FV.nan ≠ FV.nan
    ∧ (panelColumn (squeezeModule sq scfg) p).getD i FV.nan ≠ FV.nan
    ∧ (panelColumn (volumeModule vcfg) p).getD i FV.nan ≠ FV.nan
    ∧ ((rate_of_changeAt ((tickerSeries p (p.getD i default).ticker).map
          (fun r => r.close)) rscfg.short_window (posInTicker p i) = FV.nan ∨
        rate_of_changeAt ((tickerSeries p (p.getD i default).ticker).map
          (fun r => r.close)) rscfg.mid_window (posInTicker p i) = FV.nan ∨
        rate_of_changeAt ((tickerSeries p (p.getD i default).ticker).map
          (fun r => r.close)) rscfg.long_window (posInTicker p i) = FV.nan ∨
        rate_of_changeAt ((tickerSeries p (p.getD i default).ticker).map
          (fun r => r.close)) rscfg.very_long_window (posInTicker p i) = FV.nan) →
        (panelColumn (rsModule rscfg) p).getD i FV.nan = FV.nan) := by
  unfold panelColumn
  refine ⟨?_, ?_, ?_, ?_, ?_⟩
  · rw [getD_range_map _ _ _ _ hi]
    exact compute_momentum_scoreAt_ne_nan mcfg _ _
  · rw [getD_range_map _ _ _ _ hi]
    exact compute_trend_scoreAt_ne_nan tcfg _ _
  · rw [getD_range_map _ _ _ _ hi]
    exact compute_squeeze_scoreAt_ne_nan sq scfg _ _
  · rw [getD_range_map _ _ _ _ hi]
    exact compute_volume_scoreAt_ne_nan vcfg _ _ _
  · intro h
    rw [getD_range_map _ _ _ _ hi]
    exact compute_rs_scoreAt_propagates_nan rscfg _ _ h

/-- Witness for C3's amended theorem on the concrete panel `p1`. -/
theorem factor_modules_fill_then_combine_witness :
    (panelColumn (momentumModule {}) p1).getD 0 FV.nan ≠ FV.nan
    ∧ (panelColumn (trendModule {}) p1).getD 0 FV.nan ≠ FV.nan
    ∧ (panelColumn (squeezeModule sqW {}) p1).getD 0 FV.nan ≠ FV.nan
    ∧ (panelColumn (volumeModule {}) p1).getD 0 FV.nan ≠ FV.nan
    ∧ ((rate_of_changeAt ((tickerSeries p1 ((p1.getD 0 default).ticker)).map
          (fun r => r.close)) (21 : ℕ) (posInTicker p1 0) = FV.nan ∨
        rate_of_changeAt ((tickerSeries p1 ((p1.getD 0 default).ticker)).map
          (fun r => r.close)) (63 : ℕ) (posInTicker p1 0) = FV.nan ∨
        rate_of_changeAt ((tickerSeries p1 ((p1.getD 0 default).ticker)).map
          (fun r => r.close)) (126 : ℕ) (posInTicker p1 0) = FV.nan ∨
        rate_of_changeAt ((tickerSeries p1 ((p1.getD 0 default).ticker)).map
          (fun r => r.close)) (252 : ℕ) (posInTicker p1 0) = FV.nan) →
        (panelColumn (rsModule {}) p1).getD 0 FV.nan = FV.nan) :=
  factor_modules_fill_then_combine sqW {} {} {} {} {} p1 0 (by norm_num [p1])

/-- C7 (corrected) — counterexample to the claim as stated: the claim
asserts the rate of change is NaN where the lagged value is zero, but
on the series `[0, 5]` with window 1 the code divides `5` by the
lagged `0` and numpy yields `+∞`, which is not NaN. -/
theorem rate_of_change_zero_lag_counterexample :
    rate_of_changeAt [0, 5] 1 1 = FV.pinf ∧ FV.pinf.isNan = false := by
  constructor
  · rfl
  · rfl

/-- C7 (amended): `rate_of_change(w)` equals
`(value[t]/value[t-w] - 1) * 100`; it is NaN (propagated, never an
error) where the lagged value is unavailable (first `w` positions of
the ticker's series) and where the lagged value and the current value
are both zero; where only the lagged value is zero it is `±∞` by the
sign of the current value, not NaN. -/
theorem rate_of_change_policy (xs : List ℚ) (w i : ℕ) (_hi : i < xs.length) :
    (i < w → rate_of_changeAt xs w i = FV.nan)
    ∧ (w ≤ i → seriesGet xs (i - w) ≠ 0 →
        rate_of_changeAt xs w i =
          FV.fin ((seriesGet xs i / seriesGet xs (i - w) - 1) * 100))
    ∧ (w ≤ i → seriesGet xs (i - w) = 0 → seriesGet xs i = 0 →
        rate_of_changeAt xs w i = FV.nan)
    ∧ (w ≤ i → seriesGet xs (i - w) = 0 → 0 < seriesGet xs i →
        rate_of_changeAt xs w i = FV.pinf)
    ∧ (w ≤ i → seriesGet xs (i - w) = 0 → seriesGet xs i < 0 →
        rate_of_changeAt xs w i = FV.ninf) := by
  refine ⟨?_, ?_, ?_, ?_, ?_⟩
  · intro h
    simp [rate_of_changeAt, h, FV.div, FV.sub, FV.add, FV.neg, FV.mul]
  · intro h hp
    simp [rate_of_changeAt, Nat.not_lt.2 h, hp, FV.div, FV.sub, FV.add,
      FV.neg, FV.mul, sub_eq_add_neg]
  · intro h hp hv
    simp [rate_of_changeAt, Nat.not_lt.2 h, hp, hv, FV.div, FV.sub, FV.add,
      FV.neg, FV.mul]
  · intro h hp hv
    simp [rate_of_changeAt, Nat.not_lt.2 h, hp, hv.ne', hv, FV.div, FV.sub,
      FV.add, FV.neg, FV.mul]
  · intro h hp hv
    simp [rate_of_changeAt, Nat.not_lt.2 h, hp, hv.ne, hv, not_lt_of_lt hv,
      FV.div, FV.sub, FV.add, FV.neg, FV.mul]

/-- Witness for C7's amended theorem: on `[10, 20]` with window 1 the
defined branch gives `(20/10 - 1) * 100 = 100`. -/
theorem rate_of_change_policy_witness :
    rate_of_changeAt [10, 20] 1 1 = FV.fin 100 := by
  have h := (rate_of_change_policy [10, 20] 1 1 (by norm_num)).2.1
    (by norm_num) (by norm_num [seriesGet])
  rw [show ((seriesGet [10, 20] 1 / seriesGet [10, 20] 0 - 1) * 100 : ℚ) = 100
    by norm_num [seriesGet]] at h
  exact h

/-- A concrete TCCM configuration for witnesses/counterexamples:
commission-free, unit calibration constant, identity impact power
(the `impact_alpha = 1` instance of `x ** impact_alpha`). -/
def tccmRefl : TCCMConfig :=
  { commission_per_share := 0
    calibration_constant := 1
    impactPow := fun x => x
    adv_window := 20 }

/-- As `tccmRefl` with a unit commission per share. -/
def tccmLin : TCCMConfig :=
  { commission_per_share := 1
    calibration_constant := 1
    impactPow := fun x => x
    adv_window := 20 }

/-- C2 (corrected) — counterexample to the claim as stated: the claim
asserts a transition with `Δshares = positions_next - positions_prev ≤ 0`
contributes zero impact cost, but the code charges impact on
`|Δshares|` (`tccm.py` line 65).  Selling 10 shares
(`prev = 10, next = 0`, so `Δshares = -10 ≤ 0`) at price 1 with
ADV 10 and volatility 1 under `tccmRefl` has `dollar/ADV = 1`, where
`1 ** impact_alpha = 1` for EVERY impact exponent, so the cost is
`calibration_constant * 1 * 1 = 1` dollar of pure impact — not the
commission-only `0` the claim requires. -/
theorem trade_cost_sell_counterexample :
    tradeCostFormula tccmRefl 10 0 1 (FV.fin 10) (FV.fin 1) = FV.fin 1
    ∧ ((0 : ℚ) - 10 ≤ 0)
    ∧ tradeCostFormula tccmRefl 10 0 1 (FV.fin 10) (FV.fin 1) ≠
        FV.fin (|(0 : ℚ) - 10| * tccmRefl.commission_per_share) := by
  have h : tradeCostFormula tccmRefl 10 0 1 (FV.fin 10) (FV.fin 1) =
      FV.fin 1 := by
    simp only [tradeCostFormula, tccmRefl, FV.replace0, FV.div, FV.powQ,
      FV.mul, FV.fillna, FV.add]
    norm_num
  refine ⟨h, by norm_num, ?_⟩
  rw [h]
  intro hx
  rw [FV.fin.injEq] at hx
  norm_num [tccmRefl] at hx

/-- C2 (amended): with ADV defined and nonzero and volatility defined,
the trade cost equals
`commission_per_share * |Δshares| + calibration_constant *
(|Δshares| * price / ADV) ** impact_alpha * volatility` —
the impact is charged on the absolute position change, so (with a
positive-on-positives impact power, positive constants and prices)
every nonzero `Δshares`, sells included, contributes strictly
positive impact cost, and only `Δshares = 0` contributes none. -/
theorem trade_cost_abs_delta
    (cfg : TCCMConfig) (prev next price a v : ℚ) (ha : a ≠ 0)
    (hp0 : cfg.impactPow 0 = 0) :
    tradeCostFormula cfg prev next price (FV.fin a) (FV.fin v) =
      FV.fin (|next - prev| * cfg.commission_per_share +
        cfg.calibration_constant *
          cfg.impactPow (|next - prev| * price / a) * v)
    ∧ (next = prev →
        tradeCostFormula cfg prev next price (FV.fin a) (FV.fin v) = FV.fin 0)
    ∧ ((∀ x, 0 < x → 0 < cfg.impactPow x) → 0 < cfg.calibration_constant →
        0 < price → 0 < v → 0 < a → next ≠ prev →
        0 < cfg.calibration_constant *
          cfg.impactPow (|next - prev| * price / a) * v) := by
  refine ⟨?_, ?_, ?_⟩
  · simp [tradeCostFormula, FV.replace0, ha, FV.div, FV.powQ, FV.mul,
      FV.fillna, FV.add]
  · intro hnp
    subst hnp
    simp [tradeCostFormula, FV.replace0, ha, FV.div, FV.powQ, FV.mul,
      FV.fillna, FV.add, hp0]
  · intro hpp hc hpr hv hA hne
    have hd : 0 < |next - prev| := abs_pos.2 (sub_ne_zero.2 hne)
    exact mul_pos (mul_pos hc (hpp _ (div_pos (mul_pos hd hpr) hA))) hv

/-- Witness for C2's amended theorem: buying 3 shares (5 → 2 is a
sell of 3) at price 2 with ADV 4 and volatility 1 under `tccmLin`. -/
theorem trade_cost_abs_delta_witness :
    tradeCostFormula tccmLin 5 2 2 (FV.fin 4) (FV.fin 1) =
      FV.fin (|(2 : ℚ) - 5| * tccmLin.commission_per_share +
        tccmLin.calibration_constant *
          tccmLin.impactPow (|(2 : ℚ) - 5| * 2 / 4) * 1) :=
  (trade_cost_abs_delta tccmLin 5 2 2 4 1 (by norm_num) rfl).1

/-- C6 (confirmed): wherever ADV is NaN (trailing window not yet
filled — `compute_adv` is NaN before `adv_window` observations) or
zero, the trade cost's impact term vanishes and the cost equals the
commission term alone (a defined number), while the capacity-usage
ratio is NaN (not filled). -/
theorem tccm_adv_undefined_policy
    (cfg : TCCMConfig) (prev next pos price : ℚ) (vol adv : FV)
    (volume : List ℚ) (i : ℕ) :
    ((adv = FV.nan ∨ adv = FV.fin 0) →
      tradeCostFormula cfg prev next price adv vol =
        FV.fin (|next - prev| * cfg.commission_per_share)
      ∧ capacityFormula pos price adv = FV.nan)
    ∧ (i + 1 < cfg.adv_window →
        compute_advAt volume cfg.adv_window i = FV.nan) := by
  constructor
  · intro h
    rcases h with h | h <;> subst h <;>
      exact ⟨by simp [tradeCostFormula, FV.replace0, FV.div, FV.powQ, FV.mul,
          FV.fillna, FV.add],
        by simp [capacityFormula, FV.replace0, FV.div]⟩
  · intro h
    simp [compute_advAt, rollingMeanAt, h]

/-- Witness for C6's theorem: a two-observation volume series under
the default 20-day ADV window. -/
theorem tccm_adv_undefined_policy_witness :
    (tradeCostFormula tccmLin 5 2 3 FV.nan (FV.fin 1) =
        FV.fin (|(2 : ℚ) - 5| * tccmLin.commission_per_share)
      ∧ capacityFormula 7 3 FV.nan = FV.nan)
    ∧ compute_advAt [100, 100] tccmLin.adv_window 1 = FV.nan := by
  have h := tccm_adv_undefined_policy tccmLin 5 2 7 3 (FV.fin 1) FV.nan
    [100, 100] 1
  exact ⟨h.1 (Or.inl rfl), h.2 (by norm_num [tccmLin])⟩

/-- C9 (corrected) — counterexample to the claim as stated: the claim
asserts `backtest_weights` does not modify any of its arguments, but
when the supplied `BacktestConfig` carries `tc_config = None` the
function assigns a default `TCCMConfig()` into the caller's object
(`calibrator.py` lines 88-89), so the config after the call differs
from the config passed in. -/
theorem backtest_config_mutation_counterexample :
    backtestConfigUpdate tccmRefl
        { volatility_target := 1/10, tc_config := none } ≠
      { volatility_target := 1/10, tc_config := none } := by
  intro h
  exact Option.noConfusion (congrArg BacktestConfig.tc_config h)

/-- C9 (amended): the only caller-visible write `backtest_weights`
performs is filling an absent `tc_config` with the default
`TCCMConfig()`; the write is idempotent (a second call sees a filled
config and leaves it unchanged), and a config whose `tc_config` is
already set is not modified at all, so repeated calls with equal
inputs still interact only through their return values. -/
theorem backtest_config_update_idempotent (d : TCCMConfig)
    (cfg : BacktestConfig) :
    backtestConfigUpdate d (backtestConfigUpdate d cfg) =
      backtestConfigUpdate d cfg
    ∧ (∀ t, cfg.tc_config = some t → backtestConfigUpdate d cfg = cfg) := by
  rcases cfg with ⟨vt, tc⟩
  cases tc <;> simp [backtestConfigUpdate]

/-- Witness for C9's amended theorem on concrete configurations. -/
theorem backtest_config_update_idempotent_witness :
    backtestConfigUpdate tccmRefl (backtestConfigUpdate tccmRefl
        { volatility_target := 1/10, tc_config := some tccmLin }) =
      backtestConfigUpdate tccmRefl
        { volatility_target := 1/10, tc_config := some tccmLin }
    ∧ backtestConfigUpdate tccmRefl
        { volatility_target := 1/10, tc_config := some tccmLin } =
      { volatility_target := 1/10, tc_config := some tccmLin } := by
  have h := backtest_config_update_idempotent tccmRefl
    { volatility_target := 1/10, tc_config := some tccmLin }
  exact ⟨h.1, h.2 tccmLin rfl⟩

/-- C10 (confirmed): on an empty candidate iterable the calibration
loop never runs and `calibrate_phase1` returns the initial pair —
the empty weight mapping and `-np.inf` (the bottom element of
`WithBot ℚ`) — without raising. -/
theorem calibrate_phase1_empty (backtestSharpe : WeightVec → ℚ) :
    calibrate_phase1 backtestSharpe [] = ([], ⊥) := rfl

/-- C5 (confirmed): the reported statistic equals the spec's
`(mean * 252) / (popstd * √252)` with a 0 fallback exactly when the
denominator is 0, and the denominator is 0 precisely on flat series
(every observation equal to the mean — which covers empty and
single-observation series).  The hypotheses on `sq` hold for the real
square root. -/
theorem sharpe_net_matches_spec (sq : ℚ → ℚ)
    (hpos : ∀ x, 0 < sq x ↔ 0 < x) (hnn : ∀ x, 0 ≤ sq x) (xs : List ℚ) :
    sharpe_net sq xs = sharpeSpec sq xs
    ∧ (sq (pvarianceQ xs) * sq 252 = 0 ↔ ∀ x ∈ xs, x = seriesMeanQ xs) := by
  have h252 : 0 < sq 252 := (hpos 252).2 (by norm_num)
  have hvar_nonneg : 0 ≤ pvarianceQ xs := by
    unfold pvarianceQ
    apply div_nonneg
    · apply List.sum_nonneg
      intro y hy
      obtain ⟨a, _, rfl⟩ := List.mem_map.1 hy
      positivity
    · exact Nat.cast_nonneg _
  have hsigma_nonneg : 0 ≤ sq (pvarianceQ xs) * sq 252 :=
    mul_nonneg (hnn _) (hnn 252)
  constructor
  · unfold sharpe_net sharpeSpec
    dsimp only
    by_cases hz : sq (pvarianceQ xs) * sq 252 = 0
    · simp [hz]
    · have hlt : 0 < sq (pvarianceQ xs) * sq 252 :=
        lt_of_le_of_ne hsigma_nonneg (Ne.symm hz)
      simp [hz, hlt]
  · constructor
    · intro h x hx
      have h1 : sq (pvarianceQ xs) = 0 := by
        rcases mul_eq_zero.1 h with h1 | h1
        · exact h1
        · exact absurd h1 (ne_of_gt h252)
      have h2 : pvarianceQ xs = 0 := by
        by_contra hne
        have hv : 0 < pvarianceQ xs := lt_of_le_of_ne hvar_nonneg (Ne.symm hne)
        have := (hpos _).2 hv
        rw [h1] at this
        exact lt_irrefl 0 this
      have hlen : 0 < ((xs.length : ℚ)) :=
        Nat.cast_pos.2 (List.length_pos_of_mem hx)
      unfold pvarianceQ at h2
      rw [div_eq_zero_iff] at h2
      rcases h2 with h2 | h2
      · have hterm : (x - seriesMeanQ xs) ^ 2 = 0 := by
          have hmem : (x - seriesMeanQ xs) ^ 2 ∈
              xs.map (fun y => (y - seriesMeanQ xs) ^ 2) :=
            List.mem_map_of_mem _ hx
          have hle : (x - seriesMeanQ xs) ^ 2 ≤
              (xs.map (fun y => (y - seriesMeanQ xs) ^ 2)).sum := by
            apply List.single_le_sum _ _ hmem
            intro y hy
            obtain ⟨a, _, rfl⟩ := List.mem_map.1 hy
            positivity
          have h0 : (0:ℚ) ≤ (x - seriesMeanQ xs) ^ 2 := by positivity
          rw [h2] at hle
          exact le_antisymm hle h0
        have := pow_eq_zero_iff (n := 2) (by norm_num) |>.1 hterm
        exact sub_eq_zero.1 this
      · exact absurd h2 (ne_of_gt hlen)
    · intro h
      have hvar0 : pvarianceQ xs = 0 := by
        unfold pvarianceQ
        have hs : (xs.map (fun y => (y - seriesMeanQ xs) ^ 2)).sum = 0 := by
          apply List.sum_eq_zero
          intro y hy
          obtain ⟨a, ha, rfl⟩ := List.mem_map.1 hy
          rw [h a ha, sub_self]
          norm_num
        rw [hs, zero_div]
      have hsq0 : sq (pvarianceQ xs) = 0 := by
        have hle : ¬ 0 < sq (pvarianceQ xs) := by
          rw [hpos, hvar0]
          exact lt_irrefl 0
        exact le_antisymm (not_lt.1 hle) (hnn _)
      rw [hsq0, zero_mul]

/-- Witness for C5's theorem with the stand-in square root `sqW` on
the series `[1, 3]`. -/
theorem sharpe_net_matches_spec_witness :
    sharpe_net sqW [1, 3] = sharpeSpec sqW [1, 3]
    ∧ (sqW (pvarianceQ [1, 3]) * sqW 252 = 0 ↔
        ∀ x ∈ [(1 : ℚ), 3], x = seriesMeanQ [1, 3]) :=
  sharpe_net_matches_spec sqW (fun x => by simp [sqW])
    (fun x => by simp [sqW]) [1, 3]

/-- C8 (confirmed): a frame `ensure_multiindex` accepts normalizes to
a `(date, ticker)`-keyed panel sorted date-outermost, and
re-normalizing that panel returns it unchanged (same keys, same
order, same values). -/
theorem ensure_multiindex_idempotent (f : Frame) (p : List PEntry)
    (h : ensure_multiindex f = some p) :
    ensure_multiindex (Frame.multiDT p) = some p ∧ List.Sorted entryLe p := by
  cases f with
  | badFrame => exact absurd h (by simp [ensure_multiindex])
  | multiDT rows =>
      simp only [ensure_multiindex, Option.some.injEq] at h
      subst h
      exact ⟨by
        simp only [ensure_multiindex, Option.some.injEq]
        exact List.Sorted.insertionSort_eq (List.sorted_insertionSort entryLe _),
        List.sorted_insertionSort entryLe _⟩
  | multiTD rows =>
      simp only [ensure_multiindex, Option.some.injEq] at h
      subst h
      exact ⟨by
        simp only [ensure_multiindex, Option.some.injEq]
        exact List.Sorted.insertionSort_eq (List.sorted_insertionSort entryLe _),
        List.sorted_insertionSort entryLe _⟩
  | plainDT rows =>
      simp only [ensure_multiindex, Option.some.injEq] at h
      subst h
      exact ⟨by
        simp only [ensure_multiindex, Option.some.injEq]
        exact List.Sorted.insertionSort_eq (List.sorted_insertionSort entryLe _),
        List.sorted_insertionSort entryLe _⟩

/-- Witness for C8's theorem: a two-row frame indexed
`[ticker, date]` is reordered and key-sorted, and the result is a
fixed point of normalization. -/
theorem ensure_multiindex_idempotent_witness :
    ensure_multiindex (Frame.multiDT [((1, 2), 7), ((2, 1), 5)]) =
      some [((1, 2), 7), ((2, 1), 5)]
    ∧ List.Sorted entryLe [((1, 2), 7), ((2, 1), 5)] :=
  ensure_multiindex_idempotent
    (Frame.multiTD [((1, 2), 5), ((2, 1), 7)])
    [((1, 2), 7), ((2, 1), 5)] (by decide)

/-- Every fold-max starting point bounds its result from below. -/
theorem le_foldl_max (l : List ℚ) (a : ℚ) : a ≤ l.foldl max a := by
  induction l generalizing a with
  | nil => exact le_refl a
  | cons b tl ih => exact le_trans (le_max_left a b) (ih (max a b))

/-- Invariant of the calibration scan: starting from a current best
`(b, sharpe b)`, the loop returns the running maximum of the Sharpe
values and the first candidate (current best first) attaining it. -/
theorem calib_loop_invariant (sharpe : WeightVec → ℚ) :
    ∀ (cs : List WeightVec) (b : WeightVec),
      (cs.foldl (calibStep sharpe) (b, (sharpe b : WithBot ℚ))).2 =
        (((cs.map sharpe).foldl max (sharpe b) : ℚ) : WithBot ℚ)
      ∧ (b :: cs).find?
          (fun x => decide (sharpe x = (cs.map sharpe).foldl max (sharpe b))) =
        some (cs.foldl (calibStep sharpe) (b, (sharpe b : WithBot ℚ))).1 := by
  intro cs
  induction cs with
  | nil =>
      intro b
      simp [List.find?]
  | cons d tl ih =>
      intro b
      by_cases hbd : sharpe b < sharpe d
      · have hstep : calibStep sharpe (b, (sharpe b : WithBot ℚ)) d =
            (d, (sharpe d : WithBot ℚ)) := by
          simp [calibStep, WithBot.coe_lt_coe, hbd]
        have hmax : max (sharpe b) (sharpe d) = sharpe d := max_eq_right hbd.le
        have hM : ((d :: tl).map sharpe).foldl max (sharpe b) =
            (tl.map sharpe).foldl max (sharpe d) := by
          simp [List.foldl_cons, hmax]
        have hbne : sharpe b ≠ (tl.map sharpe).foldl max (sharpe d) :=
          ne_of_lt (lt_of_lt_of_le hbd (le_foldl_max _ _))
        obtain ⟨ih1, ih2⟩ := ih d
        constructor
        · rw [List.foldl_cons, hstep, hM]
          exact ih1
        · rw [hM, List.find?_cons_of_neg _ (by simpa using hbne),
            List.foldl_cons, hstep]
          exact ih2
      · have hstep : calibStep sharpe (b, (sharpe b : WithBot ℚ)) d =
            (b, (sharpe b : WithBot ℚ)) := by
          simp [calibStep, WithBot.coe_lt_coe, hbd]
        have hmax : max (sharpe b) (sharpe d) = sharpe b :=
          max_eq_left (not_lt.1 hbd)
        have hM : ((d :: tl).map sharpe).foldl max (sharpe b) =
            (tl.map sharpe).foldl max (sharpe b) := by
          simp [List.foldl_cons, hmax]
        obtain ⟨ih1, ih2⟩ := ih b
        refine ⟨by rw [List.foldl_cons, hstep, hM]; exact ih1, ?_⟩
        rw [hM, List.foldl_cons, hstep]
        by_cases hb : sharpe b = (tl.map sharpe).foldl max (sharpe b)
        · rw [List.find?_cons_of_pos _ (by simpa using hb)]
          rw [List.find?_cons_of_pos _ (by simpa using hb)] at ih2
          exact ih2
        · have hbleM : sharpe b ≤ (tl.map sharpe).foldl max (sharpe b) :=
            le_foldl_max _ _
          have hdne : sharpe d ≠ (tl.map sharpe).foldl max (sharpe b) := by
            intro hd
            exact hb (le_antisymm hbleM (hd ▸ not_lt.1 hbd))
          rw [List.find?_cons_of_neg _ (by simpa using hb),
            List.find?_cons_of_neg _ (by simpa using hdne)]
          rw [List.find?_cons_of_neg _ (by simpa using hb)] at ih2
          exact ih2

/-- C4 (confirmed): on a non-empty candidate list, `calibrate_phase1`
returns as its Sharpe the maximum of the backtest Sharpe values over
the candidates (the fold-max starting at the head's Sharpe), and as
its weights the FIRST candidate in the supplied order attaining that
maximum (`List.find?`), so exact ties go to the first-seen candidate;
the scan evaluates the backtest on every candidate in order and
replaces the best only on strict improvement. -/
theorem calibrate_selects_first_argmax (sharpe : WeightVec → ℚ)
    (c : WeightVec) (rest : List WeightVec) :
    (calibrate_phase1 sharpe (c :: rest)).2 =
      (((rest.map sharpe).foldl max (sharpe c) : ℚ) : WithBot ℚ)
    ∧ (c :: rest).find?
        (fun x => decide (sharpe x = (rest.map sharpe).foldl max (sharpe c))) =
      some (calibrate_phase1 sharpe (c :: rest)).1 := by
  have hfirst : calibStep sharpe ([], ⊥) c = (c, (sharpe c : WithBot ℚ)) := by
    simp [calibStep, WithBot.bot_lt_coe]
  unfold calibrate_phase1
  rw [List.foldl_cons, hfirst]
  exact calib_loop_invariant sharpe rest c

/-- A member on which the predicate fails keeps the count strictly
below the length. -/
theorem countP_lt_length_of_mem {α : Type} (p : α → Bool) {l : List α}
    {x : α} (hx : x ∈ l) (hpx : p x = false) : l.countP p < l.length := by
  refine lt_of_le_of_ne (List.countP_le_length p) (fun h => ?_)
  have := List.countP_eq_length.1 h x hx
  rw [hpx] at this
  exact Bool.noConfusion this

/-- IEEE `x < x` is `False`. -/
theorem FV.ltb_self (x : FV) : x.ltb x = false := by
  cases x <;> simp [FV.ltb]

/-- IEEE `x ≤ x` is `True` for every non-NaN `x`. -/
theorem FV.leb_self {x : FV} (h : x ≠ FV.nan) : x.leb x = true := by
  cases x <;> simp_all [FV.leb]

/-- The average rank of a non-NaN member of its cross-section lies in
`[1, n]`. -/
theorem avgRank_bounds {g : List FV} {x : FV} (hx : x ∈ g)
    (hnan : x ≠ FV.nan) :
    1 ≤ avgRank g x ∧ avgRank g x ≤ (g.length : ℚ) := by
  have hLT : g.countP (fun y => y.ltb x) < g.length :=
    countP_lt_length_of_mem _ hx (FV.ltb_self x)
  have hLE_le : g.countP (fun y => y.leb x) ≤ g.length :=
    List.countP_le_length _
  have hLE_pos : 0 < g.countP (fun y => y.leb x) :=
    List.countP_pos_iff.2 ⟨x, hx, FV.leb_self hnan⟩
  have hLTq : ((g.countP (fun y => y.ltb x) : ℚ)) + 1 ≤ (g.length : ℚ) := by
    exact_mod_cast hLT
  have hLEq : ((g.countP (fun y => y.leb x) : ℚ)) ≤ (g.length : ℚ) := by
    exact_mod_cast hLE_le
  have hLEq1 : (1 : ℚ) ≤ (g.countP (fun y => y.leb x) : ℚ) := by
    exact_mod_cast hLE_pos
  have hLT0 : (0 : ℚ) ≤ (g.countP (fun y => y.ltb x) : ℚ) :=
    Nat.cast_nonneg _
  unfold avgRank
  constructor
  · rw [le_div_iff₀ (by norm_num : (0:ℚ) < 2)]
    linarith
  · rw [div_le_iff₀ (by norm_num : (0:ℚ) < 2)]
    linarith

/-- The `_rank` scaling at one value of a cross-section: length-1
groups collapse to `0.0`; in groups of ≥ 2, non-NaN values land
inside `[lower, upper]` and NaN values stay NaN. -/
theorem rankScale_cases (lower upper : ℚ) (hlu : lower ≤ upper)
    {g : List FV} {v : FV} (hv : v ∈ g) :
    (g.length = 1 → rankScale lower upper g v = FV.fin 0)
    ∧ (2 ≤ g.length → v ≠ FV.nan →
        ∃ q, rankScale lower upper g v = FV.fin q ∧ lower ≤ q ∧ q ≤ upper)
    ∧ (2 ≤ g.length → v = FV.nan → rankScale lower upper g v = FV.nan) := by
  refine ⟨?_, ?_, ?_⟩
  · intro h1
    simp [rankScale, h1]
  · intro h2 hnan
    have hn : ¬ g.length ≤ 1 := by omega
    obtain ⟨hr1, hr2⟩ := avgRank_bounds hv hnan
    have hlen2 : (2 : ℚ) ≤ (g.length : ℚ) := by exact_mod_cast h2
    have hden : (0 : ℚ) < (g.length : ℚ) - 1 := by linarith
    refine ⟨lower + (avgRank g v - 1) * (upper - lower) / ((g.length : ℚ) - 1),
      ?_, ?_, ?_⟩
    · cases v with
      | nan => exact absurd rfl hnan
      | pinf => simp [rankScale, hn]
      | ninf => simp [rankScale, hn]
      | fin a => simp [rankScale, hn]
    · have hnum : 0 ≤ (avgRank g v - 1) * (upper - lower) :=
        mul_nonneg (by linarith) (by linarith)
      have := div_nonneg hnum hden.le
      linarith
    · have key : (avgRank g v - 1) * (upper - lower) / ((g.length : ℚ) - 1) ≤
          upper - lower := by
        rw [div_le_iff₀ hden]
        have h1 : (avgRank g v - 1) * (upper - lower) ≤
            ((g.length : ℚ) - 1) * (upper - lower) :=
          mul_le_mul_of_nonneg_right (by linarith) (by linarith)
        linarith [h1, mul_comm ((g.length : ℚ) - 1) (upper - lower)]
      linarith
  · intro h2 hnan
    subst hnan
    simp [rankScale, show ¬ g.length ≤ 1 by omega]

/-- A row's own raw value belongs to its date's cross-section. -/
theorem mem_dateCrossSection (p : List Row) (raw : List FV) {i : ℕ}
    (hi : i < p.length) :
    raw.getD i FV.nan ∈ dateCrossSection p raw (p.getD i default).date := by
  unfold dateCrossSection
  exact List.mem_map_of_mem _
    (List.mem_filter.2 ⟨List.mem_range.2 hi, by simp⟩)

/-- C1 (amended): for every panel and every raw factor column, the
engine's per-date rank normalization sends a row whose date has a
single panel row to exactly `0`; on dates with at least two rows it
sends every row whose raw value is defined to a finite score inside
`[lower, upper]` (the engine fixes `[-1, 1]`) — but a row whose raw
value is NaN (as the RS factor produces on early dates) keeps a NaN
score rather than a value in the interval. -/
theorem rank_normalize_bounds (lower upper : ℚ) (hlu : lower ≤ upper)
    (p : List Row) (raw : List FV) (i : ℕ) (hi : i < p.length) :
    ((dateCrossSection p raw (p.getD i default).date).length = 1 →
      (rank_normalizeCol lower upper p raw).getD i FV.nan = FV.fin 0)
    ∧ (2 ≤ (dateCrossSection p raw (p.getD i default).date).length →
        raw.getD i FV.nan ≠ FV.nan →
        ∃ q, (rank_normalizeCol lower upper p raw).getD i FV.nan = FV.fin q ∧
          lower ≤ q ∧ q ≤ upper)
    ∧ (2 ≤ (dateCrossSection p raw (p.getD i default).date).length →
        raw.getD i FV.nan = FV.nan →
        (rank_normalizeCol lower upper p raw).getD i FV.nan = FV.nan) := by
  have hcol : (rank_normalizeCol lower upper p raw).getD i FV.nan =
      rankScale lower upper (dateCrossSection p raw (p.getD i default).date)
        (raw.getD i FV.nan) := by
    unfold rank_normalizeCol
    exact getD_range_map _ _ _ _ hi
  rw [hcol]
  exact rankScale_cases lower upper hlu (mem_dateCrossSection p raw hi)

/-- A two-ticker, one-date panel (date 0, tickers 0 and 1). -/
def pCE : List Row :=
  [⟨0, 0, 100, 101, 99, 100, 1000⟩, ⟨0, 1, 50, 51, 49, 50, 2000⟩]

/-- Engine configuration enabling only the RS factor. -/
def engRS : FactorEngineConfig :=
  { use_rs := true
    use_trend := false
    use_squeeze := false
    use_momentum := false
    use_volume := false }

/-- C1 (corrected) — counterexample to the claim as stated: on the
panel `pCE`, whose single date carries 2 tickers, the factor engine's
RS score is NaN for both rows (the raw RS values are NaN for lack of
ROC history and `rank_normalize` keeps NaN ranks), so the score is
not a value within `[-1, 1]` even though the cross-section has ≥ 2
tickers. -/
theorem factor_engine_nan_score_counterexample :
    compute_factor_matrix engRS sqW pCE = [("RS_score", [FV.nan, FV.nan])]
    ∧ (dateCrossSection pCE (panelColumn (rsModule {}) pCE) 0).length = 2 := by
  constructor
  · rfl
  · rfl

/-- Witness for C1's amended theorem: on `pCE` with the defined raw
column `[fin 3, fin 7]` the two-row date keeps both scores within
`[-1, 1]`. -/
theorem rank_normalize_bounds_witness :
    ((dateCrossSection pCE [FV.fin 3, FV.fin 7]
        ((pCE.getD 0 default).date)).length = 1 →
      (rank_normalizeCol (-1) 1 pCE [FV.fin 3, FV.fin 7]).getD 0 FV.nan =
        FV.fin 0)
    ∧ (2 ≤ (dateCrossSection pCE [FV.fin 3, FV.fin 7]
          ((pCE.getD 0 default).date)).length →
        ([FV.fin 3, FV.fin 7].getD 0 FV.nan) ≠ FV.nan →
        ∃ q, (rank_normalizeCol (-1) 1 pCE [FV.fin 3, FV.fin 7]).getD 0
            FV.nan = FV.fin q ∧ -1 ≤ q ∧ q ≤ 1)
    ∧ (2 ≤ (dateCrossSection pCE [FV.fin 3, FV.fin 7]
          ((pCE.getD 0 default).date)).length →
        ([FV.fin 3, FV.fin 7].getD 0 FV.nan) = FV.nan →
        (rank_normalizeCol (-1) 1 pCE [FV.fin 3, FV.fin 7]).getD 0 FV.nan =
          FV.nan) :=
  rank_normalize_bounds (-1) 1 (by norm_num) pCE [FV.fin 3, FV.fin 7] 0
    (by norm_num [pCE])
